import Mathlib

/-!
matching2D_Student.cpp: ratio-test match filter and Harris keypoint deduplication.

A shallow embedding of the two hand-written algorithms of
src/matching2D_Student.cpp:

* the SEL_KNN branch of matchDescriptors (Lowe ratio test over the k = 2 nearest
  neighbours), together with the matcher / selector dispatch around it;
* the non-maximum-suppression loop of detKeypointsHarris.

Library calls (cv::DescriptorMatcher::match, knnMatch, cv::cornerHarris,
cv::normalize, cv::KeyPoint::overlap) are not part of the file: their results are
inputs of the embedded functions.
-/

namespace Matching2D

/-! ## Data model -/

/-- The cv::DMatch record. The type F of the distance stands for the C++ float: the
filter only multiplies a distance by ratio_thresh and compares two distances with <,
so it is embedded for every arithmetic F offering those two operations. -/
structure DMatch (F : Type) where
  queryIdx : Int
  trainIdx : Int
  imgIdx : Int
  distance : F
deriving DecidableEq, Repr

/-- The matcher object behind the pointer matcher (lines 15-27); a null pointer is
the value none of Option Matcher. -/
inductive Matcher where
  | BF
  | FLANN
deriving DecidableEq, Repr

/-- The cv::KeyPoint fields the loop reads and writes: pt.x, pt.y, size, response.
The loop stores the integers i, j, 2 * apertureSize and the int response in them,
so integer fields hold every value it produces exactly. -/
structure KeyPoint where
  x : Int
  y : Int
  size : Int
  response : Int
deriving DecidableEq, Repr

/-- The matrix dst_norm (CV_32FC1): rows, cols, and for each cell the float read by
dst_norm.at<float>(j, i). A finite float is a rational number and the loop only
truncates and compares it, so the cell values are rationals. -/
structure Mat where
  rows : Nat
  cols : Nat
  atFloat : Nat → Nat → ℚ

/-- Line 211: (int)dst_norm.at<float>(j, i). The conversion of a float to int discards
the fractional part (truncation toward zero): 100.9 becomes 100 and -3.7 becomes -3. -/
def Mat.atInt (dst_norm : Mat) (j i : Nat) : Int :=
  (dst_norm.atFloat j i).num.tdiv (dst_norm.atFloat j i).den

/-! ## Match filter (matchDescriptors, lines 8-55) -/

/-- Line 43: const float ratio_thresh = 0.8f, the literal 0.8 read in the arithmetic F. -/
def ratio_thresh {F : Type} [OfScientific F] : F := 0.8

/-- Lines 47-50, the body of the loop at index i. The accesses knn_matches[i][0] and
knn_matches[i][1] are unchecked in C++; an access past the end of a vector makes the
step fail (none). -/
def ratioStep {F : Type} [OfScientific F] [Mul F] [LT F] [DecidableRel (fun a b : F => a < b)]
    (knn_matches : List (List (DMatch F))) (ms : List (DMatch F)) (i : Nat) :
    Option (List (DMatch F)) := do
  let q ← knn_matches[i]?
  let best ← q[0]?
  let second ← q[1]?
  if best.distance < ratio_thresh * second.distance then
    pure (ms ++ [best])
  else
    pure ms

/-- Lines 45-51: for (size_t i = 0; i < knn_matches.size(); i++), threading the
caller's vector matches through the steps. -/
def ratioLoop {F : Type} [OfScientific F] [Mul F] [LT F] [DecidableRel (fun a b : F => a < b)]
    (knn_matches : List (List (DMatch F))) (ms : List (DMatch F)) :
    Option (List (DMatch F)) :=
  (List.range knn_matches.length).foldlM (ratioStep knn_matches) ms

/-- Lines 8-55. matchFn m old is the content of matches after
matcher->match(descSource, descRef, matches) on matcher m when it held old before;
knnMatch m is what matcher->knnMatch(descSource, descRef, knn_matches, 2) stores.
With a matcherType other than MAT_BF and MAT_FLANN the pointer stays null and the
calls through it fail (none). -/
def matchDescriptors {F : Type} [OfScientific F] [Mul F] [LT F]
    [DecidableRel (fun a b : F => a < b)]
    (matchFn : Matcher → List (DMatch F) → List (DMatch F))
    (knnMatch : Matcher → List (List (DMatch F)))
    (matcherType selectorType : String) (ms : List (DMatch F)) :
    Option (List (DMatch F)) :=
  let cfg : Option Matcher × List (DMatch F) :=
    if matcherType = "MAT_BF" then (some Matcher.BF, ms)
    else if matcherType = "MAT_FLANN" then (some Matcher.FLANN, matchFn Matcher.FLANN ms)
    else (none, ms)
  if selectorType = "SEL_NN" then
    cfg.1.map (fun m => matchFn m cfg.2)
  else if selectorType = "SEL_KNN" then
    cfg.1.bind (fun m => ratioLoop (knnMatch m) cfg.2)
  else
    some cfg.2

/-- The specification of the filter, in the words of the spec: a query contributes its
best candidate iff best.distance < 0.8 × second.distance, and nothing otherwise. -/
def ratioSurvivor {F : Type} [OfScientific F] [Mul F] [LT F]
    [DecidableRel (fun a b : F => a < b)] : List (DMatch F) → Option (DMatch F)
  | best :: second :: _ =>
      if best.distance < 0.8 * second.distance then some best else none
  | _ => none

/-- The loop body of ratioStep with the query handed over instead of its index. -/
def ratioVisit {F : Type} [OfScientific F] [Mul F] [LT F] [DecidableRel (fun a b : F => a < b)]
    (ms : List (DMatch F)) (q : List (DMatch F)) : Option (List (DMatch F)) := do
  let best ← q[0]?
  let second ← q[1]?
  if best.distance < ratio_thresh * second.distance then
    pure (ms ++ [best])
  else
    pure ms

/-! ## Keypoint deduplication (detKeypointsHarris, lines 206-241) -/

/-- Line 186: int apertureSize = 3. -/
def apertureSize : Int := 3

/-- Line 187: int minResponse = 100. -/
def minResponse : Int := 100

/-- Lines 224-225: the test cv::KeyPoint::overlap(a, b) > maxOverlap with
maxOverlap = 0.0 (line 206). The library function returns the intersection over
union of the two discs of diameter size around the centres, which is positive exactly
when both diameters are positive and the centres are closer than the sum of the radii:
2 * dist < a.size + b.size, squared here. For two keypoints of the loop (size 6) this
reads: the centres are less than 6 apart. -/
def overlaps (a b : KeyPoint) : Bool :=
  decide (0 < a.size ∧ 0 < b.size ∧
    4 * ((a.x - b.x) ^ 2 + (a.y - b.y) ^ 2) < (a.size + b.size) ^ 2)

/-- Lines 221-234: the loop over the keypoints accepted so far. It returns the vector
after the loop and the flag bOverlap. A replacement (line 230) ends the loop (break);
an overlapping keypoint that is not weaker only sets the flag and the loop goes on. -/
def nmsLoop (newKeyPoint : KeyPoint) : List KeyPoint → Bool → List KeyPoint × Bool
  | [], bOverlap => ([], bOverlap)
  | it :: rest, bOverlap =>
    if overlaps newKeyPoint it then
      if newKeyPoint.response > it.response then
        (newKeyPoint :: rest, true)
      else
        let r := nmsLoop newKeyPoint rest true
        (it :: r.1, r.2)
    else
      let r := nmsLoop newKeyPoint rest bOverlap
      (it :: r.1, r.2)

/-- Lines 221-238: the loop from bOverlap = false, then push_back when no overlap
was found. -/
def nmsInsert (newKeyPoint : KeyPoint) (keypoints : List KeyPoint) : List KeyPoint :=
  let r := nmsLoop newKeyPoint keypoints false
  if !r.2 then r.1 ++ [newKeyPoint] else r.1

/-- Lines 211-239: the body of the two loops at row j, column i. -/
def scanCell (dst_norm : Mat) (keypoints : List KeyPoint) (j i : Nat) : List KeyPoint :=
  let response := dst_norm.atInt j i
  if response > minResponse then
    nmsInsert ⟨i, j, 2 * apertureSize, response⟩ keypoints
  else
    keypoints

/-- Lines 207-241: the scan over the rows and, in each row, over the columns, on the
vector keypoints handed in by the caller. -/
def detKeypointsHarris (dst_norm : Mat) (keypoints : List KeyPoint) : List KeyPoint :=
  (List.range dst_norm.rows).foldl
    (fun kps j => (List.range dst_norm.cols).foldl (fun kps i => scanCell dst_norm kps j i) kps)
    keypoints

/-- The degenerate field of the idempotence property: the given dimensions, each
keypoint's response at that keypoint's position, 0 elsewhere. -/
def fieldOf (rows cols : Nat) (K : List KeyPoint) : Mat :=
  { rows := rows, cols := cols,
    atFloat := fun j i =>
      match K.find? (fun k => decide (k.x = (i : Int) ∧ k.y = (j : Int))) with
      | some k => (k.response : ℚ)
      | none => 0 }

/-- A field given by the list of its rows (0 outside the lists). -/
def ofRows (rows cols : Nat) (l : List (List ℚ)) : Mat :=
  ⟨rows, cols, fun j i => (l.getD j []).getD i 0⟩

/-- The cells of a rows × cols matrix in the order of the scan. -/
def cells (rows cols : Nat) : List (Nat × Nat) :=
  (List.range rows).flatMap (fun j => (List.range cols).map (fun i => (j, i)))

/-- Row-major order on cells (row, column): an earlier row, or the same row and an
earlier column. -/
def rowMajorLt (a b : Nat × Nat) : Prop := a.1 < b.1 ∨ (a.1 = b.1 ∧ a.2 < b.2)

instance rowMajorLt_decidable (a b : Nat × Nat) : Decidable (rowMajorLt a b) :=
  inferInstanceAs (Decidable (a.1 < b.1 ∨ (a.1 = b.1 ∧ a.2 < b.2)))

/-! ## Concrete inputs -/

/-- Two queries over the rationals: (best = 1.0, second = 2.0) and
(best = 1.8, second = 2.0). -/
def knnExample : List (List (DMatch ℚ)) :=
  [[⟨0, 10, 0, 1.0⟩, ⟨0, 11, 0, 2.0⟩], [⟨1, 12, 0, 1.8⟩, ⟨1, 13, 0, 2.0⟩]]

/-- A 2 × 9 field with three cells above the threshold: 150 at (row 0, col 0),
255 at (row 0, col 8), 180 at (row 1, col 4). -/
def nmsField : Mat :=
  ofRows 2 9 [[150, 0, 0, 0, 0, 0, 0, 0, 255], [0, 0, 0, 0, 180, 0, 0, 0, 0]]

/-- A 3 × 3 field, all zeros except the centre = 150. -/
def centreField : Mat := ofRows 3 3 [[0, 0, 0], [0, 150, 0], [0, 0, 0]]

/-- A 1 × 2 field: two adjacent cells both equal to 200. -/
def tieField : Mat := ofRows 1 2 [[200, 200]]

/-- A 3 × 3 field, all zeros except the centre = 201/2 = 100.5. -/
def centreHalfField : Mat := ofRows 3 3 [[0, 0, 0], [0, mkRat 201 2, 0], [0, 0, 0]]

/-- A 3 × 3 field, all zeros except the centre = 1507/10 = 150.7. -/
def centreFractionField : Mat := ofRows 3 3 [[0, 0, 0], [0, mkRat 1507 10, 0], [0, 0, 0]]

/-- A 1 × 2 field: two adjacent cells both equal to 201/2 = 100.5. -/
def tieHalfField : Mat := ofRows 1 2 [[mkRat 201 2, mkRat 201 2]]

/-- A 2 × 9 field with three cells above the threshold: 200 at (row 0, col 0),
150 at (row 0, col 8), 180 at (row 1, col 4). -/
def policyField : Mat :=
  ofRows 2 9 [[200, 0, 0, 0, 0, 0, 0, 0, 150], [0, 0, 0, 0, 180, 0, 0, 0, 0]]

/-! ## Lemmas: match filter -/

theorem foldlM_range_index {α β : Type} (g : β → α → Option β) (l : List α) (b : β) :
    (List.range l.length).foldlM (fun acc i => l[i]? >>= g acc) b = l.foldlM g b := by
  induction l generalizing b with
  | nil => simp
  | cons a l ih =>
    rw [List.length_cons, List.range_succ_eq_map, List.foldlM_cons, List.foldlM_cons]
    simp only [List.getElem?_cons_zero, Option.some_bind, Option.bind_eq_bind]
    congr 1
    funext b1
    rw [List.foldlM_map]
    simpa using ih b1

section MatchFilter
variable {F : Type} [OfScientific F] [Mul F] [LT F] [DecidableRel (fun a b : F => a < b)]

theorem ratioLoop_eq_visit (knn : List (List (DMatch F))) (ms : List (DMatch F)) :
    ratioLoop knn ms = knn.foldlM ratioVisit ms := by
  unfold ratioLoop
  rw [← foldlM_range_index ratioVisit knn ms]
  rfl

theorem ratioVisit_wf (ms : List (DMatch F)) (q : List (DMatch F)) (h : 2 ≤ q.length) :
    ratioVisit ms q = some (ms ++ (ratioSurvivor q).toList) := by
  match q, h with
  | best :: second :: rest, _ =>
    simp only [ratioVisit, ratioSurvivor, ratio_thresh]
    by_cases hlt : best.distance < 0.8 * second.distance <;> simp [hlt]

theorem ratioLoop_append (knn : List (List (DMatch F))) (ms : List (DMatch F))
    (h : ∀ q ∈ knn, 2 ≤ q.length) :
    ratioLoop knn ms = some (ms ++ knn.filterMap ratioSurvivor) := by
  rw [ratioLoop_eq_visit]
  induction knn generalizing ms with
  | nil => simp
  | cons q knn ih =>
    have hq : 2 ≤ q.length := h q (List.mem_cons_self _ _)
    have ht : ∀ q1 ∈ knn, 2 ≤ q1.length := fun q1 h1 => h q1 (List.mem_cons_of_mem _ h1)
    rw [List.foldlM_cons, ratioVisit_wf ms q hq]
    simp only [Option.some_bind, Option.bind_eq_bind]
    rw [ih _ ht]
    cases hs : ratioSurvivor q <;> simp [List.filterMap_cons, hs]

end MatchFilter

theorem knnExample_survivors :
    knnExample.filterMap ratioSurvivor = [⟨0, 10, 0, 1.0⟩] := by
  have h1 : ((1.0 : ℚ) < 0.8 * 2.0) := by norm_num
  have h2 : ¬ ((1.8 : ℚ) < 0.8 * 2.0) := by norm_num
  simp only [knnExample, List.filterMap_cons, List.filterMap_nil, ratioSurvivor, h1, h2,
    if_true, if_false]

/-! ## Lemmas: keypoint deduplication -/

/-- The nested loops visit the cells in the order of the list cells. -/
theorem detKeypointsHarris_eq_cells (F : Mat) (kps : List KeyPoint) :
    detKeypointsHarris F kps
      = (cells F.rows F.cols).foldl (fun kps c => scanCell F kps c.1 c.2) kps := by
  unfold detKeypointsHarris cells
  generalize List.range F.rows = rs
  induction rs generalizing kps with
  | nil => rfl
  | cons j rs ih =>
    rw [List.foldl_cons, List.flatMap_cons, List.foldl_append, ← ih, List.foldl_map]

theorem mem_cells {rows cols : Nat} {c : Nat × Nat} :
    c ∈ cells rows cols ↔ c.1 < rows ∧ c.2 < cols := by
  obtain ⟨j, i⟩ := c
  simp only [cells, List.mem_flatMap, List.mem_range, List.mem_map, Prod.mk.injEq]
  constructor
  · rintro ⟨j1, hj, i1, hi, rfl, rfl⟩
    exact ⟨hj, hi⟩
  · rintro ⟨hj, hi⟩
    exact ⟨j, hj, i, hi, rfl, rfl⟩

theorem cells_pairwise (rows cols : Nat) : List.Pairwise rowMajorLt (cells rows cols) := by
  unfold cells
  rw [List.pairwise_flatMap]
  constructor
  · intro j _
    rw [List.pairwise_map]
    exact (List.pairwise_lt_range cols).imp (fun h => Or.inr ⟨rfl, h⟩)
  · refine (List.pairwise_lt_range rows).imp ?_
    intro j1 j2 hlt x hx y hy
    simp only [List.mem_map, List.mem_range] at hx hy
    obtain ⟨_, _, rfl⟩ := hx
    obtain ⟨_, _, rfl⟩ := hy
    exact Or.inl hlt

theorem rowMajorLt_irrefl (a : Nat × Nat) : ¬ rowMajorLt a a := by
  unfold rowMajorLt; omega

theorem rowMajorLt_asymm {a b : Nat × Nat} (h : rowMajorLt a b) : ¬ rowMajorLt b a := by
  unfold rowMajorLt at *; omega

/-- Splitting the scan at a cell: the cells before it are row-major earlier, the cells
after it row-major later. -/
theorem cells_split {rows cols : Nat} {a : Nat × Nat} (ha : a ∈ cells rows cols) :
    ∃ pre post, cells rows cols = pre ++ a :: post ∧
      (∀ c ∈ pre, rowMajorLt c a ∧ c ∈ cells rows cols) ∧
      (∀ c ∈ post, rowMajorLt a c ∧ c ∈ cells rows cols) := by
  obtain ⟨pre, post, h⟩ := List.append_of_mem ha
  have hp := cells_pairwise rows cols
  rw [h] at hp
  rw [List.pairwise_append, List.pairwise_cons] at hp
  refine ⟨pre, post, h, ?_, ?_⟩
  · intro c hc
    exact ⟨hp.2.2 c hc a (List.mem_cons_self _ _), by rw [h]; simp [hc]⟩
  · intro c hc
    exact ⟨hp.2.1.1 c hc, by rw [h]; simp [hc]⟩

theorem nmsLoop_mem (new : KeyPoint) (kps : List KeyPoint) (b : Bool) (k : KeyPoint)
    (h : k ∈ (nmsLoop new kps b).1) : k = new ∨ k ∈ kps := by
  induction kps generalizing b with
  | nil => simp [nmsLoop] at h
  | cons it rest ih =>
    unfold nmsLoop at h
    split_ifs at h with h1 h2
    · rcases List.mem_cons.1 h with h | h
      · exact Or.inl h
      · exact Or.inr (List.mem_cons_of_mem _ h)
    · rcases List.mem_cons.1 h with h | h
      · exact Or.inr (h ▸ List.mem_cons_self _ _)
      · exact (ih true h).imp id (List.mem_cons_of_mem _)
    · rcases List.mem_cons.1 h with h | h
      · exact Or.inr (h ▸ List.mem_cons_self _ _)
      · exact (ih b h).imp id (List.mem_cons_of_mem _)

theorem nmsInsert_mem (new : KeyPoint) (kps : List KeyPoint) (k : KeyPoint)
    (h : k ∈ nmsInsert new kps) : k = new ∨ k ∈ kps := by
  unfold nmsInsert at h
  simp only at h
  split_ifs at h
  · rcases List.mem_append.1 h with h | h
    · exact nmsLoop_mem new kps false k h
    · exact Or.inl (List.mem_singleton.1 h)
  · exact nmsLoop_mem new kps false k h

theorem nmsLoop_keeps (new : KeyPoint) (kps : List KeyPoint) (b : Bool) (k : KeyPoint)
    (hk : k ∈ kps) (hle : new.response ≤ k.response) : k ∈ (nmsLoop new kps b).1 := by
  induction kps generalizing b with
  | nil => simp at hk
  | cons it rest ih =>
    unfold nmsLoop
    rcases List.mem_cons.1 hk with h | h
    · subst h
      have : ¬ new.response > k.response := by omega
      split_ifs <;> simp
    · split_ifs
      · exact List.mem_cons_of_mem _ h
      · exact List.mem_cons_of_mem _ (ih true h)
      · exact List.mem_cons_of_mem _ (ih b h)

theorem nmsInsert_keeps (new : KeyPoint) (kps : List KeyPoint) (k : KeyPoint)
    (hk : k ∈ kps) (hle : new.response ≤ k.response) : k ∈ nmsInsert new kps := by
  unfold nmsInsert
  simp only
  split_ifs
  · exact List.mem_append_left _ (nmsLoop_keeps new kps false k hk hle)
  · exact nmsLoop_keeps new kps false k hk hle

theorem nmsLoop_self (new : KeyPoint) (kps : List KeyPoint) (b : Bool)
    (hlt : ∀ k ∈ kps, k.response < new.response) (h2 : (nmsLoop new kps b).2 = true) :
    b = true ∨ new ∈ (nmsLoop new kps b).1 := by
  induction kps generalizing b with
  | nil => exact Or.inl (by simpa [nmsLoop] using h2)
  | cons it rest ih =>
    have hit : new.response > it.response := hlt it (List.mem_cons_self _ _)
    have hr : ∀ k ∈ rest, k.response < new.response :=
      fun k hk => hlt k (List.mem_cons_of_mem _ hk)
    unfold nmsLoop at h2 ⊢
    split_ifs at h2 ⊢ with h1
    · exact Or.inr (List.mem_cons_self _ _)
    · exact (ih b hr h2).imp id (List.mem_cons_of_mem _)

theorem nmsInsert_self (new : KeyPoint) (kps : List KeyPoint)
    (hlt : ∀ k ∈ kps, k.response < new.response) : new ∈ nmsInsert new kps := by
  unfold nmsInsert
  simp only
  split_ifs with h
  · exact List.mem_append_right _ (List.mem_singleton_self _)
  · have h2 : (nmsLoop new kps false).2 = true := by simpa using h
    rcases nmsLoop_self new kps false hlt h2 with h3 | h3
    · cases h3
    · exact h3

theorem foldl_scan_inv (F : Mat) (P : List KeyPoint → Prop) (l : List (Nat × Nat))
    (kps : List KeyPoint) (h0 : P kps)
    (hstep : ∀ s c, c ∈ l → P s → P (scanCell F s c.1 c.2)) :
    P (l.foldl (fun kps c => scanCell F kps c.1 c.2) kps) := by
  induction l generalizing kps with
  | nil => exact h0
  | cons c l ih =>
    rw [List.foldl_cons]
    exact ih _ (hstep kps c (List.mem_cons_self _ _) h0)
      (fun s c1 hc1 hs => hstep s c1 (List.mem_cons_of_mem _ hc1) hs)

theorem foldl_scan_skip (F : Mat) (l : List (Nat × Nat)) (kps : List KeyPoint)
    (h : ∀ c ∈ l, F.atInt c.1 c.2 ≤ minResponse) :
    l.foldl (fun kps c => scanCell F kps c.1 c.2) kps = kps := by
  apply foldl_scan_inv F (fun s => s = kps) l kps rfl
  intro s c hc hs
  have := h c hc
  simp [scanCell, hs, not_lt.2 this]

theorem scan_split (F : Mat) (pre : List (Nat × Nat)) (a : Nat × Nat) (post : List (Nat × Nat))
    (kps : List KeyPoint) :
    (pre ++ a :: post).foldl (fun kps c => scanCell F kps c.1 c.2) kps
      = post.foldl (fun kps c => scanCell F kps c.1 c.2)
          (scanCell F (pre.foldl (fun kps c => scanCell F kps c.1 c.2) kps) a.1 a.2) := by
  rw [List.foldl_append, List.foldl_cons]

/-! ## Match filter: claims -/

section MatchFilterClaims
variable {F : Type} [OfScientific F] [Mul F] [LT F] [DecidableRel (fun a b : F => a < b)]

/-- Claim C1. For every list of queries in which each query has a best and a
second-best candidate, the SEL_KNN loop started on an empty match list returns, and
the list it produces is exactly the best candidates of the queries with
best.distance < 0.8 × second.distance (ratioSurvivor), in the order of the queries,
each at most once, nothing for the other queries; the same holds for matchDescriptors
called with MAT_BF and SEL_KNN on an empty list. -/
theorem knn_ratio_filter (knn : List (List (DMatch F))) (h : ∀ q ∈ knn, 2 ≤ q.length) :
    ratioLoop knn [] = some (knn.filterMap ratioSurvivor) ∧
    ∀ (matchFn : Matcher → List (DMatch F) → List (DMatch F))
      (knnMatch : Matcher → List (List (DMatch F))), knnMatch Matcher.BF = knn →
      matchDescriptors matchFn knnMatch "MAT_BF" "SEL_KNN" [] =
        some (knn.filterMap ratioSurvivor) := by
  have h1 : ratioLoop knn [] = some (knn.filterMap ratioSurvivor) := by
    simpa using ratioLoop_append knn [] h
  refine ⟨h1, ?_⟩
  intro matchFn knnMatch hk
  simp [matchDescriptors, hk, h1]

/-- Claim C10. The ratio-test loop does not clear its output: for every initial
content ms of the match list the result is ms followed by the surviving best
candidates; in particular with MAT_FLANN and SEL_KNN the matches stored by
matcher->match in the MAT_FLANN branch stay in front of the survivors, unfiltered. -/
theorem knn_ratio_appends (knn : List (List (DMatch F))) (h : ∀ q ∈ knn, 2 ≤ q.length) :
    (∀ ms : List (DMatch F), ratioLoop knn ms = some (ms ++ knn.filterMap ratioSurvivor)) ∧
    ∀ (matchFn : Matcher → List (DMatch F) → List (DMatch F))
      (knnMatch : Matcher → List (List (DMatch F))) (ms : List (DMatch F)),
      knnMatch Matcher.FLANN = knn →
      matchDescriptors matchFn knnMatch "MAT_FLANN" "SEL_KNN" ms =
        some (matchFn Matcher.FLANN ms ++ knn.filterMap ratioSurvivor) := by
  refine ⟨fun ms => ratioLoop_append knn ms h, ?_⟩
  intro matchFn knnMatch ms hk
  simp [matchDescriptors, hk, ratioLoop_append knn _ h]

end MatchFilterClaims

/-- Witness of C1: the query (best = 1.0, second = 2.0) is kept, the query
(best = 1.8, second = 2.0) is dropped. -/
theorem knn_ratio_filter_witness :
    (∀ q ∈ knnExample, 2 ≤ q.length) ∧
      ratioLoop knnExample [] = some [⟨0, 10, 0, 1.0⟩] :=
  ⟨by decide, ((knn_ratio_filter knnExample (by decide)).1).trans
    (by rw [knnExample_survivors])⟩

/-- Witness of C10: an entry already in the list stays first, on the loop and through
the MAT_FLANN branch. -/
theorem knn_ratio_appends_witness :
    (∀ q ∈ knnExample, 2 ≤ q.length) ∧
      ratioLoop knnExample [⟨7, 7, 0, 5⟩] = some [⟨7, 7, 0, 5⟩, ⟨0, 10, 0, 1.0⟩] ∧
      matchDescriptors (fun _ _ => [⟨7, 7, 0, 5⟩]) (fun _ => knnExample)
        "MAT_FLANN" "SEL_KNN" [] = some [⟨7, 7, 0, 5⟩, ⟨0, 10, 0, 1.0⟩] :=
  ⟨by decide,
   ((knn_ratio_appends knnExample (by decide)).1 _).trans
    (by rw [knnExample_survivors]; rfl),
   ((knn_ratio_appends knnExample (by decide)).2 _ _ _ rfl).trans
    (by rw [knnExample_survivors]; rfl)⟩

/-- Claim C7. A query whose second-best distance is 0 and whose best distance is
non-negative adds no match: the step of the loop at that query returns the match list
unchanged. Stated for every arithmetic in which a product with 0 is 0. -/
theorem ratio_zero_second_dropped {F : Type} [OfScientific F] [MulZeroClass F] [Preorder F]
    [DecidableRel (fun a b : F => a < b)]
    (knn : List (List (DMatch F))) (ms : List (DMatch F)) (i : Nat)
    (best second : DMatch F) (rest : List (DMatch F))
    (hq : knn[i]? = some (best :: second :: rest))
    (h0 : second.distance = 0) (hb : 0 ≤ best.distance) :
    ratioStep knn ms i = some ms := by
  have hn : ¬ best.distance < ratio_thresh * second.distance := by
    rw [h0, mul_zero]
    exact not_lt_of_le hb
  simp [ratioStep, hq, hn]

/-- Witness of C7: best = 1/2, second = 0 over the rationals. -/
theorem ratio_zero_second_dropped_witness :
    ratioStep [[(⟨0, 10, 0, 1/2⟩ : DMatch ℚ), ⟨0, 11, 0, 0⟩]] [] 0 = some [] :=
  ratio_zero_second_dropped _ [] 0 ⟨0, 10, 0, 1/2⟩ ⟨0, 11, 0, 0⟩ [] rfl rfl (by norm_num)

/-! ## Keypoint deduplication: claims -/

/-- Claim C2, evaluated on nmsField. The scan accepts (0,0) = 150 and (8,0) = 255, which
are 8 apart; the candidate (4,1) = 180 overlaps the first, is stronger and replaces it
in place without being compared with the second, from which it is less than 6 apart.
The output holds two distinct keypoints that overlap. -/
theorem harris_output_overlapping_pair :
    detKeypointsHarris nmsField [] = [⟨4, 1, 6, 180⟩, ⟨8, 0, 6, 255⟩] ∧
      (⟨4, 1, 6, 180⟩ : KeyPoint) ≠ ⟨8, 0, 6, 255⟩ ∧
      overlaps ⟨4, 1, 6, 180⟩ ⟨8, 0, 6, 255⟩ = true := by
  decide

/-- Claim C3. From an empty keypoint set every keypoint of the output has a response
strictly greater than minResponse (100), and a cell whose response equals the
threshold leaves the keypoint set as it is. -/
theorem harris_response_above_threshold (F : Mat) :
    (∀ k ∈ detKeypointsHarris F [], minResponse < k.response) ∧
    (∀ kps j i, F.atInt j i = minResponse → scanCell F kps j i = kps) := by
  constructor
  · rw [detKeypointsHarris_eq_cells]
    apply foldl_scan_inv F (fun s => ∀ k ∈ s, minResponse < k.response)
    · intro k hk
      simp at hk
    · intro s c _ hs k hk
      unfold scanCell at hk
      simp only at hk
      split_ifs at hk with h
      · rcases nmsInsert_mem _ _ _ hk with h1 | h1
        · rw [h1]
          exact h
        · exact hs k h1
      · exact hs k hk
  · intro kps j i h
    simp [scanCell, h]

/-- Witness of C3: the keypoint of centreField has response 150 > 100. -/
theorem harris_response_above_threshold_witness :
    (⟨1, 1, 6, 150⟩ : KeyPoint) ∈ detKeypointsHarris centreField [] ∧
      minResponse < (150 : Int) :=
  ⟨by decide, (harris_response_above_threshold centreField).1 ⟨1, 1, 6, 150⟩ (by decide)⟩

/-- Claim C4 as stated fails. The two cells of tieHalfField both hold 100.5: both exceed
minResponse, they are equal and adjacent, and no other cell exists; line 211 truncates
each to 100, the test of line 212 fails, and the output is empty instead of one
keypoint. -/
theorem harris_tie_below_after_truncation :
    tieHalfField.rows = 1 ∧ tieHalfField.cols = 2 ∧
      (minResponse : ℚ) < tieHalfField.atFloat 0 0 ∧
      (minResponse : ℚ) < tieHalfField.atFloat 0 1 ∧
      tieHalfField.atFloat 0 1 = tieHalfField.atFloat 0 0 ∧
      rowMajorLt (0, 0) (0, 1) ∧
      ((0 : Int) - 1) ^ 2 + ((0 : Int) - 0) ^ 2 < 36 ∧
      detKeypointsHarris tieHalfField [] = [] := by
  decide

/-- Claim C4, amended. When exactly two cells have an integer-truncated response
(int)dst_norm.at<float>(j, i) that exceeds minResponse, the two truncated responses are
equal and the centres are less than 6 apart, the output from an empty set is exactly
one keypoint, at the cell scanned first in row-major order. -/
theorem harris_tie_first_scanned (F : Mat) (r1 c1 r2 c2 : Nat)
    (h1 : r1 < F.rows ∧ c1 < F.cols) (h2 : r2 < F.rows ∧ c2 < F.cols)
    (hord : rowMajorLt (r1, c1) (r2, c2))
    (hab : minResponse < F.atInt r1 c1) (heq : F.atInt r2 c2 = F.atInt r1 c1)
    (honly : ∀ j, j < F.rows → ∀ i, i < F.cols → minResponse < F.atInt j i →
      (j, i) = (r1, c1) ∨ (j, i) = (r2, c2))
    (hnear : ((c1 : Int) - c2) ^ 2 + ((r1 : Int) - r2) ^ 2 < 36) :
    detKeypointsHarris F [] = [⟨c1, r1, 6, F.atInt r1 c1⟩] := by
  have ha : (r1, c1) ∈ cells F.rows F.cols := mem_cells.2 h1
  have hb : (r2, c2) ∈ cells F.rows F.cols := mem_cells.2 h2
  obtain ⟨pre, post, hsplit, hpre, hpost⟩ := cells_split ha
  have hbpost : (r2, c2) ∈ post := by
    rw [hsplit] at hb
    rcases List.mem_append.1 hb with h | h
    · exact absurd (hpre _ h).1 (rowMajorLt_asymm hord)
    · rcases List.mem_cons.1 h with h | h
      · rw [h] at hord
        exact absurd hord (rowMajorLt_irrefl _)
      · exact h
  obtain ⟨mid, post2, hsplit2⟩ := List.append_of_mem hbpost
  have hpw := cells_pairwise F.rows F.cols
  rw [hsplit, hsplit2, List.pairwise_append, List.pairwise_cons, List.pairwise_append,
    List.pairwise_cons] at hpw
  have hlow : ∀ x : Nat × Nat, x ∈ cells F.rows F.cols → x ≠ (r1, c1) → x ≠ (r2, c2) →
      F.atInt x.1 x.2 ≤ minResponse := by
    intro x hmem hn1 hn2
    by_contra hgt
    have hin := mem_cells.1 hmem
    rcases honly x.1 hin.1 x.2 hin.2 (not_le.1 hgt) with h | h
    · exact hn1 h
    · exact hn2 h
  have hne_of_lt : ∀ x y : Nat × Nat, rowMajorLt x y → x ≠ y := by
    intro x y hxy he
    rw [he] at hxy
    exact rowMajorLt_irrefl _ hxy
  have hpre_low : ∀ x ∈ pre, F.atInt x.1 x.2 ≤ minResponse := by
    intro x hx
    have hx1 := (hpre x hx).1
    refine hlow x (hpre x hx).2 (hne_of_lt _ _ hx1) (hne_of_lt _ _ ?_)
    unfold rowMajorLt at *
    omega
  have hmid_low : ∀ x ∈ mid, F.atInt x.1 x.2 ≤ minResponse := by
    intro x hx
    have hxp : x ∈ post := by rw [hsplit2]; simp [hx]
    refine hlow x (hpost x hxp).2 (fun h => hne_of_lt _ _ (hpost x hxp).1 h.symm)
      (hne_of_lt _ _ (hpw.2.1.2.2.2 x hx (r2, c2) (List.mem_cons_self _ _)))
  have hpost_low : ∀ x ∈ post2, F.atInt x.1 x.2 ≤ minResponse := by
    intro x hx
    have hxp : x ∈ post := by rw [hsplit2]; simp [hx]
    refine hlow x (hpost x hxp).2 (fun h => hne_of_lt _ _ (hpost x hxp).1 h.symm)
      (fun h => hne_of_lt _ _ (hpw.2.1.2.2.1.1 x hx) h.symm)
  rw [detKeypointsHarris_eq_cells, hsplit, scan_split, foldl_scan_skip F pre [] hpre_low,
    hsplit2, scan_split, foldl_scan_skip F mid _ hmid_low, foldl_scan_skip F post2 _ hpost_low]
  have hgt1 : F.atInt r1 c1 > minResponse := hab
  have hov : overlaps ⟨c2, r2, 2 * apertureSize, F.atInt r1 c1⟩
      ⟨c1, r1, 2 * apertureSize, F.atInt r1 c1⟩ = true := by
    simp only [overlaps, apertureSize, decide_eq_true_eq]
    refine ⟨by norm_num, by norm_num, ?_⟩
    nlinarith [hnear]
  simp [scanCell, heq, hgt1, nmsInsert, nmsLoop, hov]
  decide

/-- Witness of C4: two adjacent cells both equal to 200 give one keypoint, at the
first of them. -/
theorem harris_tie_first_scanned_witness :
    detKeypointsHarris tieField [] = [⟨0, 0, 6, 200⟩] :=
  harris_tie_first_scanned tieField 0 0 0 1 (by decide) (by decide) (by decide) (by decide)
    (by decide) (by decide) (by decide)

/-- Claim C5 as stated fails. In centreHalfField exactly one cell, the centre, exceeds
minResponse (100.5 > 100), yet line 211 truncates it to 100 and the output is empty.
In centreFractionField the centre holds 150.7 and the keypoint carries the truncated
response 150, not the value of the cell. -/
theorem harris_single_cell_truncates :
    ((minResponse : ℚ) < centreHalfField.atFloat 1 1 ∧
      (∀ j, j < centreHalfField.rows → ∀ i, i < centreHalfField.cols →
        (minResponse : ℚ) < centreHalfField.atFloat j i → j = 1 ∧ i = 1) ∧
      detKeypointsHarris centreHalfField [] = []) ∧
    (detKeypointsHarris centreFractionField [] = [⟨1, 1, 6, 150⟩] ∧
      ((150 : Int) : ℚ) ≠ centreFractionField.atFloat 1 1) := by
  decide

/-- Claim C5, amended. When exactly one cell (row r, column c) has an integer-truncated
value (int)dst_norm.at<float>(r, c) that exceeds minResponse, the output from an empty
set is exactly one keypoint with x = c, y = r, size = 2 × apertureSize = 6 and the
integer truncation of that cell's value as response. -/
theorem harris_single_cell (F : Mat) (r c : Nat) (hr : r < F.rows) (hc : c < F.cols)
    (hab : minResponse < F.atInt r c)
    (honly : ∀ j, j < F.rows → ∀ i, i < F.cols → minResponse < F.atInt j i → j = r ∧ i = c) :
    detKeypointsHarris F [] = [⟨c, r, 2 * apertureSize, F.atInt r c⟩] ∧
      2 * apertureSize = 6 := by
  refine ⟨?_, by decide⟩
  have ha : (r, c) ∈ cells F.rows F.cols := mem_cells.2 ⟨hr, hc⟩
  obtain ⟨pre, post, hsplit, hpre, hpost⟩ := cells_split ha
  have hlow : ∀ l : List (Nat × Nat),
      (∀ x ∈ l, (rowMajorLt x (r, c) ∨ rowMajorLt (r, c) x) ∧ x ∈ cells F.rows F.cols) →
      ∀ x ∈ l, F.atInt x.1 x.2 ≤ minResponse := by
    intro l hl x hx
    by_contra hgt
    obtain ⟨hne, hmem⟩ := hl x hx
    have hin := mem_cells.1 hmem
    have := honly x.1 hin.1 x.2 hin.2 (not_le.1 hgt)
    have hx2 : x = (r, c) := Prod.ext this.1 this.2
    rw [hx2] at hne
    rcases hne with h | h <;> exact rowMajorLt_irrefl _ h
  rw [detKeypointsHarris_eq_cells, hsplit, scan_split,
    foldl_scan_skip F pre [] (hlow pre (fun x hx => ⟨Or.inl (hpre x hx).1, (hpre x hx).2⟩)),
    foldl_scan_skip F post _ (hlow post (fun x hx => ⟨Or.inr (hpost x hx).1, (hpost x hx).2⟩))]
  have : F.atInt r c > minResponse := hab
  simp [scanCell, this, nmsInsert, nmsLoop]

/-- Witness of C5: the 3 × 3 field with centre 150 gives one keypoint at the centre. -/
theorem harris_single_cell_witness :
    detKeypointsHarris centreField [] = [⟨1, 1, 6, 150⟩] :=
  (harris_single_cell centreField 1 1 (by decide) (by decide) (by decide) (by decide)).1

/-- Claim C6, evaluated on nmsField. The output K holds the keypoints at (4,1) and
(8,0); on the field that holds the responses of K at their positions the scan meets
(8,0) = 255 first and then discards (4,1) = 180, which overlaps it and is weaker: the
second run returns one keypoint only. -/
theorem harris_rerun_differs :
    detKeypointsHarris nmsField [] = [⟨4, 1, 6, 180⟩, ⟨8, 0, 6, 255⟩] ∧
      detKeypointsHarris (fieldOf nmsField.rows nmsField.cols (detKeypointsHarris nmsField [])) []
        = [⟨8, 0, 6, 255⟩] := by
  decide

/-- Claim C8, evaluated on the keypoint set [(0,0) = 200, (8,0) = 150] and the candidate
(4,1) = 180, the state the scan of policyField reaches at row 1, column 4. The first
keypoint that overlaps the candidate is (0,0) and the candidate is not stronger than it,
yet the candidate is not discarded: the loop goes on and writes it over (8,0). The set
changes and now holds (0,0) and (4,1), which overlap. -/
theorem nmsInsert_first_overlap_not_decisive :
    overlaps ⟨4, 1, 6, 180⟩ ⟨0, 0, 6, 200⟩ = true ∧
      ¬ ((⟨4, 1, 6, 180⟩ : KeyPoint).response > (⟨0, 0, 6, 200⟩ : KeyPoint).response) ∧
      nmsInsert ⟨4, 1, 6, 180⟩ [⟨0, 0, 6, 200⟩, ⟨8, 0, 6, 150⟩]
        = [⟨0, 0, 6, 200⟩, ⟨4, 1, 6, 180⟩] ∧
      nmsInsert ⟨4, 1, 6, 180⟩ [⟨0, 0, 6, 200⟩, ⟨8, 0, 6, 150⟩]
        ≠ [⟨0, 0, 6, 200⟩, ⟨8, 0, 6, 150⟩] ∧
      overlaps ⟨0, 0, 6, 200⟩ ⟨4, 1, 6, 180⟩ = true ∧
      detKeypointsHarris policyField [] = [⟨0, 0, 6, 200⟩, ⟨4, 1, 6, 180⟩] := by
  decide

/-- Claim C9. When (r, c) is the row-major-first cell that attains the maximum of the
integer-truncated responses of the field and that maximum exceeds minResponse, the output from an empty set contains the
keypoint at (x = c, y = r) carrying that maximum response. -/
theorem harris_keeps_first_maximum (F : Mat) (r c : Nat) (hr : r < F.rows) (hc : c < F.cols)
    (hab : minResponse < F.atInt r c)
    (hmax : ∀ j, j < F.rows → ∀ i, i < F.cols → F.atInt j i ≤ F.atInt r c)
    (hfirst : ∀ j, j < F.rows → ∀ i, i < F.cols → rowMajorLt (j, i) (r, c) →
      F.atInt j i < F.atInt r c) :
    (⟨c, r, 2 * apertureSize, F.atInt r c⟩ : KeyPoint) ∈ detKeypointsHarris F [] := by
  have ha : (r, c) ∈ cells F.rows F.cols := mem_cells.2 ⟨hr, hc⟩
  obtain ⟨pre, post, hsplit, hpre, hpost⟩ := cells_split ha
  rw [detKeypointsHarris_eq_cells, hsplit, scan_split]
  have hweak : ∀ k ∈ pre.foldl (fun kps c => scanCell F kps c.1 c.2) [],
      k.response < F.atInt r c := by
    apply foldl_scan_inv F (fun s => ∀ k ∈ s, k.response < F.atInt r c)
    · intro k hk
      simp at hk
    · intro s x hx hs k hk
      unfold scanCell at hk
      simp only at hk
      split_ifs at hk with h
      · rcases nmsInsert_mem _ _ _ hk with h1 | h1
        · rw [h1]
          have hin := mem_cells.1 (hpre x hx).2
          exact hfirst x.1 hin.1 x.2 hin.2 (hpre x hx).1
        · exact hs k h1
      · exact hs k hk
  apply foldl_scan_inv F (fun s => (⟨c, r, 2 * apertureSize, F.atInt r c⟩ : KeyPoint) ∈ s)
  · have hgt : F.atInt r c > minResponse := hab
    simp only [scanCell, hgt, if_true]
    exact nmsInsert_self _ _ hweak
  · intro s x hx hs
    unfold scanCell
    simp only
    split_ifs with h
    · have hin := mem_cells.1 (hpost x hx).2
      exact nmsInsert_keeps _ _ _ hs (hmax x.1 hin.1 x.2 hin.2)
    · exact hs

/-- Witness of C9: the maximum 255 of nmsField, at row 0, column 8, is in the output. -/
theorem harris_keeps_first_maximum_witness :
    (⟨8, 0, 6, 255⟩ : KeyPoint) ∈ detKeypointsHarris nmsField [] :=
  harris_keeps_first_maximum nmsField 0 8 (by decide) (by decide) (by decide) (by decide)
    (by decide)

end Matching2D
